import Mathlib

/-!
Shallow embedding of `src/change_detector.py` from the CURS_BNR repository
(BNR exchange-rate monitor), together with theorems checking the
specification's claims about the change-detection engine.

Modelling conventions:
* Python `datetime` values are modelled by `DateTime`: a calendar day
  (`day : Int`, a day number) plus a time-of-day component (`sec : Nat`);
  `datetime.date()` keeps only the `day` field, and
  `datetime.combine(d, datetime.min.time())` produces `⟨d, 0⟩` (midnight).
* Python floats are modelled by `ℚ` (the arithmetic in the module is
  plain field arithmetic; we do not model floating-point rounding).
* Python's `ZeroDivisionError` (raised by `(end_rate - start_rate) /
  start_rate` when `start_rate == 0.0`) is modelled by the `Except`
  monad with error `DetectError.divisionByZero`; every other path of
  `detect_changes` is total.
* Python dict `rates_by_date` built by iteration: a later observation
  with the same calendar date overwrites an earlier one, so the lookup
  returns the LAST observation in input order having that date.
* Python's `sorted` is a stable sort; both sorts in
  `_remove_overlapping_changes` are modelled by stable insertion sorts
  (`sortByMagDesc`, `sortByStart`).
-/

namespace CursBNR

/-- A `datetime.datetime`: day number plus seconds past midnight. -/
structure DateTime where
  day : Int
  sec : Nat
deriving DecidableEq, Repr

/-- Python `datetime` comparison: lexicographic on (day, time-of-day). -/
def DateTime.le (a b : DateTime) : Bool :=
  a.day < b.day || (a.day == b.day && a.sec ≤ b.sec)

/-- `database.models.ExchangeRate` as consumed by the detector:
a timestamp and a rate. -/
structure ExchangeRate where
  timestamp : DateTime
  rate : ℚ
deriving DecidableEq, Repr

/-- `ChangePoint` dataclass from `change_detector.py`. -/
structure ChangePoint where
  start_date : DateTime
  end_date : DateTime
  start_rate : ℚ
  end_rate : ℚ
  change_percent : ℚ
  duration_days : Int
  alert_type : String
  severity : String
deriving DecidableEq, Repr

/-- The configuration stored by `ChangeDetector.__init__` (no validation
is performed there: the two arguments are stored as given). -/
structure ChangeDetector where
  change_threshold : ℚ
  max_duration_days : Int
deriving DecidableEq, Repr

/-- `ChangeDetector._calculate_severity`. -/
def calculate_severity (change_percent : ℚ) (duration_days : Int) : String :=
  if change_percent > 5 ∨ (change_percent > 3 ∧ duration_days < 7) then
    "high"
  else if change_percent > 3 ∨ (change_percent > 2 ∧ duration_days < 14) then
    "medium"
  else
    "low"

/-- Stable insertion with respect to a boolean comparison: the new
element goes in front of the first element it compares `le` to, so
among equal keys earlier input elements stay first (Python's `sorted`
is stable). -/
def insertBy {α : Type} (le : α → α → Bool) (x : α) : List α → List α
  | [] => [x]
  | y :: ys => if le x y then x :: y :: ys else y :: insertBy le x ys

/-- Stable insertion sort; models Python's stable `sorted`/`list.sort`. -/
def sortBy {α : Type} (le : α → α → Bool) (l : List α) : List α :=
  l.foldr (insertBy le) []

/-- `sorted(rates_by_date.keys())`: ascending sort of the day numbers. -/
def sortDates (l : List Int) : List Int := sortBy (fun a b => a ≤ b) l

/-- `rates_by_date[d].rate`: the dict comprehension keeps, for each
calendar date, the LAST observation in input order (dict overwrite).
The default `0` is never reached for a date that occurs in the list. -/
def lookupRate (rates : List ExchangeRate) (d : Int) : ℚ :=
  match (rates.filter (fun r => r.timestamp.day == d)).getLast? with
  | some r => r.rate
  | none => 0

/-- The runtime error `detect_changes` can propagate
(Python `ZeroDivisionError` from the `change_percent` division). -/
inductive DetectError
  | divisionByZero
deriving DecidableEq, Repr

/-- The `ChangePoint(...)` constructor call inside the scan loop:
date components are combined with `datetime.min.time()` (midnight),
`change_percent = (end_rate - start_rate) / start_rate * 100`,
`alert_type` is `positive` iff the change is positive, and severity is
computed from the absolute change and the duration. -/
def mkChangePoint (start_date end_date : Int) (start_rate end_rate : ℚ) :
    ChangePoint :=
  let change_percent := (end_rate - start_rate) / start_rate * 100
  { start_date := ⟨start_date, 0⟩
  , end_date := ⟨end_date, 0⟩
  , start_rate := start_rate
  , end_rate := end_rate
  , change_percent := change_percent
  , duration_days := end_date - start_date
  , alert_type := if 0 < change_percent then "positive" else "negative"
  , severity := calculate_severity |change_percent| (end_date - start_date) }

/-- The inner `for j in range(i+1, len(sorted_dates))` loop of
`ChangeDetector.detect_changes`: scan forward from `start_date` (whose
rate is `start_rate`) through the later dates, breaking as soon as the
duration exceeds `max_duration_days`, and emitting a `ChangePoint` for
every date whose absolute percentage change reaches the threshold.
Division by a zero `start_rate` raises. -/
def scanFrom (det : ChangeDetector) (lookup : Int → ℚ) (start_date : Int)
    (start_rate : ℚ) : List Int → Except DetectError (List ChangePoint)
  | [] => .ok []
  | end_date :: rest =>
    if det.max_duration_days < end_date - start_date then
      .ok []
    else if start_rate = 0 then
      .error .divisionByZero
    else
      (scanFrom det lookup start_date start_rate rest).map (fun tail =>
        if det.change_threshold ≤
            |(lookup end_date - start_rate) / start_rate * 100| then
          mkChangePoint start_date end_date start_rate (lookup end_date) :: tail
        else
          tail)

/-- The outer `for i, start_date in enumerate(sorted_dates)` loop:
candidates from each start date, concatenated in scan order. -/
def scanAll (det : ChangeDetector) (lookup : Int → ℚ) :
    List Int → Except DetectError (List ChangePoint)
  | [] => .ok []
  | d :: ds =>
    (scanFrom det lookup d (lookup d) ds).bind (fun here =>
      (scanAll det lookup ds).map (fun rest => here ++ rest))

/-- The candidate list of `detect_changes` prior to overlap resolution
(the `changes` list accumulated by the nested loops). -/
def candidates (det : ChangeDetector) (rates : List ExchangeRate) :
    Except DetectError (List ChangePoint) :=
  scanAll det (lookupRate rates)
    (sortDates ((rates.map (fun r => r.timestamp.day)).dedup))

/-- The inclusive calendar range `[a, b]` materialized as a list of day
numbers (the `while current_date <= end_date` loop); empty when `b < a`. -/
def rangeList (a b : Int) : List Int :=
  (List.range (b - a + 1).toNat).map (fun (k : Nat) => a + (k : Int))

/-- `sorted(changes, key=lambda x: abs(x.change_percent), reverse=True)`:
stable, descending by absolute change. -/
def sortByMagDesc (l : List ChangePoint) : List ChangePoint :=
  sortBy (fun a b => |b.change_percent| ≤ |a.change_percent|) l

/-- `sorted(non_overlapping, key=lambda x: x.start_date)`. -/
def sortByStart (l : List ChangePoint) : List ChangePoint :=
  sortBy (fun a b => DateTime.le a.start_date b.start_date) l

/-- The greedy selection loop of `_remove_overlapping_changes`: accept a
candidate iff its materialized date range does not intersect the used
set; on acceptance, union its dates into the used set. -/
def greedyFilter : List ChangePoint → List Int → List ChangePoint
  | [], _ => []
  | c :: cs, used =>
    let ds := rangeList c.start_date.day c.end_date.day
    if ds.any (fun d => used.contains d) then greedyFilter cs used
    else c :: greedyFilter cs (used ++ ds)

/-- `ChangeDetector._remove_overlapping_changes`. -/
def remove_overlapping_changes (changes : List ChangePoint) : List ChangePoint :=
  if changes.isEmpty then []
  else sortByStart (greedyFilter (sortByMagDesc changes) [])

/-- `ChangeDetector.detect_changes`. -/
def detect_changes (det : ChangeDetector) (rates : List ExchangeRate) :
    Except DetectError (List ChangePoint) :=
  if rates.length < 2 then .ok []
  else (candidates det rates).map remove_overlapping_changes

/-- The `for change in changes` save loop inside the single
`try` block of `save_alerts_to_database`: `saved_count` is incremented
per successful save, but the first raising save aborts the whole loop
and the surrounding `except` returns `0`, discarding the count. -/
def saveLoop (save : ChangePoint → Except String Unit) :
    List ChangePoint → Nat → Nat
  | [], n => n
  | c :: cs, n =>
    match save c with
    | .ok _ => saveLoop save cs (n + 1)
    | .error _ => 0

/-- `ChangeDetector.save_alerts_to_database`, parameterized by the
effect of `db_manager.save_rate_alert` on each alert. -/
def save_alerts_to_database (save : ChangePoint → Except String Unit)
    (changes : List ChangePoint) : Nat :=
  saveLoop save changes 0

/-- `rates.sort(key=lambda x: x.timestamp)`: stable ascending sort. -/
def sortByTimestamp (l : List ExchangeRate) : List ExchangeRate :=
  sortBy (fun a b => DateTime.le a.timestamp b.timestamp) l

/-- `analyze_exchange_rates`, parameterized by the observation list the
database returns and by the save effect. The pair returned is the
observable outcome: the list the function returns, and the persisted
count computed by `save_alerts_to_database` (which the Python function
prints). An empty series or a propagated detection error yields
`([], 0)` (the `except` branch returns `[]` with nothing saved). -/
def analyze_exchange_rates (rates : List ExchangeRate)
    (save : ChangePoint → Except String Unit) : List ChangePoint × Nat :=
  if rates.isEmpty then ([], 0)
  else
    match detect_changes ⟨2, 60⟩ (sortByTimestamp rates) with
    | .error _ => ([], 0)
    | .ok changes => (changes, save_alerts_to_database save changes)

/-- Day `d` lies in the inclusive calendar range of a `ChangePoint`
(the range `[start_date, end_date]` over `.date()` values). -/
def inRange (c : ChangePoint) (d : Int) : Prop :=
  c.start_date.day ≤ d ∧ d ≤ c.end_date.day

/-- Two `ChangePoint`s share no calendar date in their inclusive
`[start_date, end_date]` ranges. -/
def RangesDisjoint (c1 c2 : ChangePoint) : Prop :=
  ∀ d : Int, ¬(inRange c1 d ∧ inRange c2 d)

/-- Zero out the time-of-day of every observation (same calendar days,
same rates). -/
def stripTimes (rates : List ExchangeRate) : List ExchangeRate :=
  rates.map (fun r => { r with timestamp := ⟨r.timestamp.day, 0⟩ })

/-- The last-wins deduplication the `rates_by_date` dict performs:
one observation per calendar date, namely the last one in input order
with that date. -/
def dedupLastWins (rates : List ExchangeRate) : List ExchangeRate :=
  ((rates.map (fun r => r.timestamp.day)).dedup).filterMap
    (fun d => (rates.filter (fun r => r.timestamp.day == d)).getLast?)

/-! ### Concrete fixtures used by witnesses and counterexamples -/

/-- Two observations ten days apart: 100 then 104 (a 4% move). -/
def wRates : List ExchangeRate := [⟨⟨0, 0⟩, 100⟩, ⟨⟨10, 0⟩, 104⟩]

/-- The single change point detected on `wRates` with threshold 2,
window 60. -/
def wCP : ChangePoint :=
  ⟨⟨0, 0⟩, ⟨10, 0⟩, 100, 104, 4, 10, "positive", "medium"⟩

/-- Observations with a duplicated calendar date (different times of
day): day 0 carries 50 and then 100, day 10 carries 104. -/
def dupRates : List ExchangeRate :=
  [⟨⟨0, 3⟩, 50⟩, ⟨⟨0, 7⟩, 100⟩, ⟨⟨10, 5⟩, 104⟩]

/-- Observations with negative rates: -100 then -104, five days apart. -/
def negRates : List ExchangeRate := [⟨⟨0, 0⟩, -100⟩, ⟨⟨5, 0⟩, -104⟩]

/-- The change point the scanner emits on `negRates`: the negative
`start_rate` flows straight through the formula (change `+4%`). -/
def negCP : ChangePoint :=
  ⟨⟨0, 0⟩, ⟨5, 0⟩, -100, -104, 4, 5, "positive", "high"⟩

/-- Two observations with a 1% move, used against non-positive
thresholds. -/
def smallRates : List ExchangeRate := [⟨⟨0, 0⟩, 100⟩, ⟨⟨10, 0⟩, 101⟩]

/-- The change point detected on `smallRates` when the threshold is
non-positive. -/
def smallCP : ChangePoint :=
  ⟨⟨0, 0⟩, ⟨10, 0⟩, 100, 101, 1, 10, "positive", "low"⟩

/-- Five pairwise non-overlapping resolved change points (alert `k`
covers days `[10*k, 10*k+1]`). -/
def fiveChanges : List ChangePoint :=
  [⟨⟨0, 0⟩, ⟨1, 0⟩, 100, 103, 3, 1, "positive", "medium"⟩,
   ⟨⟨10, 0⟩, ⟨11, 0⟩, 100, 103, 3, 1, "positive", "medium"⟩,
   ⟨⟨20, 0⟩, ⟨21, 0⟩, 100, 103, 3, 1, "positive", "medium"⟩,
   ⟨⟨30, 0⟩, ⟨31, 0⟩, 100, 103, 3, 1, "positive", "medium"⟩,
   ⟨⟨40, 0⟩, ⟨41, 0⟩, 100, 103, 3, 1, "positive", "medium"⟩]

/-- A save effect that fails exactly on the third of `fiveChanges`
(the alert starting on day 20) and succeeds on every other alert. -/
def badSave (c : ChangePoint) : Except String Unit :=
  if c.start_date.day == 20 then .error "db error" else .ok ()

/-! ### Facts about the stable insertion sort -/

theorem insertBy_perm {α : Type} (le : α → α → Bool) (x : α) :
    ∀ l : List α, (insertBy le x l).Perm (x :: l)
  | [] => List.Perm.refl _
  | y :: ys => by
    unfold insertBy
    by_cases h : le x y
    · simp [h]
    · simp only [h, Bool.false_eq_true, if_false]
      exact ((insertBy_perm le x ys).cons y).trans (List.Perm.swap x y ys)

theorem sortBy_perm {α : Type} (le : α → α → Bool) :
    ∀ l : List α, (sortBy le l).Perm l
  | [] => List.Perm.refl _
  | y :: ys =>
    (insertBy_perm le y (sortBy le ys)).trans ((sortBy_perm le ys).cons y)

theorem mem_sortBy {α : Type} {le : α → α → Bool} {x : α} {l : List α} :
    x ∈ sortBy le l ↔ x ∈ l :=
  (sortBy_perm le l).mem_iff

theorem insertBy_pairwise {α : Type} {le : α → α → Bool}
    (htot : ∀ a b, le a b = true ∨ le b a = true)
    (htrans : ∀ a b c, le a b = true → le b c = true → le a c = true)
    (x : α) : ∀ {l : List α}, l.Pairwise (fun a b => le a b = true) →
    (insertBy le x l).Pairwise (fun a b => le a b = true) := by
  intro l
  induction l with
  | nil => intro _; simp [insertBy]
  | cons y ys ih =>
    intro h
    rw [List.pairwise_cons] at h
    unfold insertBy
    by_cases hxy : le x y
    · simp only [hxy, if_true]
      refine List.pairwise_cons.mpr ⟨?_, List.pairwise_cons.mpr h⟩
      intro z hz
      rcases List.mem_cons.mp hz with rfl | hz
      · exact hxy
      · exact htrans x y z hxy (h.1 z hz)
    · simp only [hxy, Bool.false_eq_true, if_false]
      refine List.pairwise_cons.mpr ⟨?_, ih h.2⟩
      intro z hz
      rcases List.mem_cons.mp ((insertBy_perm le x ys).mem_iff.mp hz) with rfl | hz
      · rcases htot z y with h' | h'
        · exact absurd h' hxy
        · exact h'
      · exact h.1 z hz

theorem sortBy_pairwise {α : Type} {le : α → α → Bool}
    (htot : ∀ a b, le a b = true ∨ le b a = true)
    (htrans : ∀ a b c, le a b = true → le b c = true → le a c = true) :
    ∀ l : List α, (sortBy le l).Pairwise (fun a b => le a b = true)
  | [] => List.Pairwise.nil
  | y :: ys => insertBy_pairwise htot htrans y (sortBy_pairwise htot htrans ys)

/-- `sortDates` of a duplicate-free list is strictly ascending. -/
theorem sortDates_pairwise_lt {l : List Int} (h : l.Nodup) :
    (sortDates l).Pairwise (· < ·) := by
  have hle : (sortDates l).Pairwise (fun a b : Int => (a ≤ b : Bool) = true) :=
    sortBy_pairwise (fun a b => by simp [Int.le_total a b])
      (fun a b c h1 h2 => by
        simp only [decide_eq_true_eq] at h1 h2 ⊢; omega) l
  have hnd : (sortDates l).Nodup := ((sortBy_perm _ l).nodup_iff).mpr h
  exact (hle.and hnd).imp (fun hab => by
    simp only [decide_eq_true_eq] at hab
    exact lt_of_le_of_ne hab.1 hab.2)

theorem mem_sortDates {x : Int} {l : List Int} : x ∈ sortDates l ↔ x ∈ l :=
  mem_sortBy

/-! ### Facts about the scan loops -/

/-- A nonzero start rate never raises: the inner loop completes. -/
theorem scanFrom_ok {det : ChangeDetector} {lookup : Int → ℚ} {d : Int} {r : ℚ}
    (hr : r ≠ 0) : ∀ ds : List Int, ∃ l, scanFrom det lookup d r ds = .ok l
  | [] => ⟨[], rfl⟩
  | e :: ds => by
    obtain ⟨l, hl⟩ := @scanFrom_ok det lookup d r hr ds
    by_cases h1 : det.max_duration_days < e - d
    · exact ⟨[], by rw [scanFrom, if_pos h1]⟩
    · refine ⟨if det.change_threshold ≤ |(lookup e - r) / r * 100| then
        mkChangePoint d e r (lookup e) :: l else l, ?_⟩
      rw [scanFrom, if_neg h1, if_neg hr, hl]
      rfl

/-- Every change point the inner loop emits is the `ChangePoint`
constructor applied to the start date, some end date from the scanned
suffix, the start rate and the looked-up end rate, with duration within
the window. -/
theorem scanFrom_shape {det : ChangeDetector} {lookup : Int → ℚ} {d : Int}
    {r : ℚ} : ∀ {ds : List Int} {l : List ChangePoint},
    scanFrom det lookup d r ds = .ok l → ∀ cp ∈ l,
    ∃ e ∈ ds, cp = mkChangePoint d e r (lookup e) ∧
      e - d ≤ det.max_duration_days := by
  intro ds
  induction ds with
  | nil =>
    intro l h cp hcp
    rw [scanFrom] at h
    cases h
    cases hcp
  | cons e ds ih =>
    intro l h cp hcp
    rw [scanFrom] at h
    by_cases h1 : det.max_duration_days < e - d
    · rw [if_pos h1] at h
      cases h
      cases hcp
    · rw [if_neg h1] at h
      by_cases hr : r = 0
      · rw [if_pos hr] at h
        cases h
      · rw [if_neg hr] at h
        cases hrec : scanFrom det lookup d r ds with
        | error err => rw [hrec] at h; cases h
        | ok tail =>
          rw [hrec] at h
          simp only [Except.map, Except.ok.injEq] at h
          subst h
          by_cases h2 : det.change_threshold ≤ |(lookup e - r) / r * 100|
          · rw [if_pos h2] at hcp
            rcases List.mem_cons.mp hcp with rfl | hcp
            · exact ⟨e, List.mem_cons_self e ds, rfl, not_lt.mp h1⟩
            · obtain ⟨e', he', hcp', hd'⟩ := ih hrec cp hcp
              exact ⟨e', List.mem_cons_of_mem e he', hcp', hd'⟩
          · rw [if_neg h2] at hcp
            obtain ⟨e', he', hcp', hd'⟩ := ih hrec cp hcp
            exact ⟨e', List.mem_cons_of_mem e he', hcp', hd'⟩

/-- Completeness of the inner loop: on a strictly ascending suffix, a
qualifying end date is never lost to the early `break`. -/
theorem scanFrom_complete {det : ChangeDetector} {lookup : Int → ℚ} {d : Int}
    {r : ℚ} {e : Int} (hr : r ≠ 0) :
    ∀ {ds : List Int} {l : List ChangePoint}, ds.Pairwise (· < ·) → e ∈ ds →
    e - d ≤ det.max_duration_days →
    det.change_threshold ≤ |(lookup e - r) / r * 100| →
    scanFrom det lookup d r ds = .ok l →
    mkChangePoint d e r (lookup e) ∈ l := by
  intro ds
  induction ds with
  | nil => intro l _ he; cases he
  | cons x ds ih =>
    intro l hsort he hdur hthr h
    rw [scanFrom] at h
    rcases List.mem_cons.mp he with rfl | he
    · rw [if_neg (not_lt.mpr hdur), if_neg hr] at h
      obtain ⟨tail, htail⟩ := @scanFrom_ok det lookup d r hr ds
      rw [htail] at h
      simp only [Except.map, Except.ok.injEq] at h
      subst h
      rw [if_pos hthr]
      exact List.mem_cons_self _ _
    · have hxe : x < e := (List.pairwise_cons.mp hsort).1 e he
      have h1 : ¬ det.max_duration_days < x - d := by omega
      rw [if_neg h1, if_neg hr] at h
      cases hrec : scanFrom det lookup d r ds with
      | error err => rw [hrec] at h; cases h
      | ok tail =>
        rw [hrec] at h
        simp only [Except.map, Except.ok.injEq] at h
        subst h
        have hmem := ih (List.pairwise_cons.mp hsort).2 he hdur hthr hrec
        by_cases h2 : det.change_threshold ≤ |(lookup x - r) / r * 100|
        · rw [if_pos h2]; exact List.mem_cons_of_mem _ hmem
        · rw [if_neg h2]; exact hmem

/-- The outer loop completes when no looked-up start rate is zero. -/
theorem scanAll_ok {det : ChangeDetector} {lookup : Int → ℚ} :
    ∀ {ds : List Int}, (∀ d ∈ ds, lookup d ≠ 0) →
    ∃ l, scanAll det lookup ds = .ok l := by
  intro ds
  induction ds with
  | nil => exact fun _ => ⟨[], rfl⟩
  | cons d ds ih =>
    intro h
    obtain ⟨here, hhere⟩ :=
      @scanFrom_ok det lookup d (lookup d) (h d (List.mem_cons_self d ds)) ds
    obtain ⟨rest, hrest⟩ := ih (fun x hx => h x (List.mem_cons_of_mem d hx))
    exact ⟨here ++ rest, by rw [scanAll, hhere, hrest]; rfl⟩

/-- Shape of every candidate emitted by the whole scan over a strictly
ascending date list. -/
theorem scanAll_shape {det : ChangeDetector} {lookup : Int → ℚ} :
    ∀ {ds : List Int} {l : List ChangePoint}, ds.Pairwise (· < ·) →
    scanAll det lookup ds = .ok l → ∀ cp ∈ l,
    ∃ a ∈ ds, ∃ b ∈ ds, a < b ∧ cp = mkChangePoint a b (lookup a) (lookup b) ∧
      b - a ≤ det.max_duration_days := by
  intro ds
  induction ds with
  | nil =>
    intro l _ h cp hcp
    rw [scanAll] at h
    cases h
    cases hcp
  | cons d ds ih =>
    intro l hsort h cp hcp
    rw [scanAll] at h
    cases hhere : scanFrom det lookup d (lookup d) ds with
    | error err => rw [hhere] at h; cases h
    | ok here =>
      rw [hhere] at h
      cases hrest : scanAll det lookup ds with
      | error err =>
        rw [hrest] at h
        cases h
      | ok rest =>
        rw [hrest] at h
        simp only [Except.bind, Except.map, Except.ok.injEq] at h
        subst h
        rcases List.mem_append.mp hcp with hcp | hcp
        · obtain ⟨e, he, hcp', hd'⟩ := scanFrom_shape hhere cp hcp
          refine ⟨d, List.mem_cons_self d ds, e, List.mem_cons_of_mem d he,
            (List.pairwise_cons.mp hsort).1 e he, hcp', hd'⟩
        · obtain ⟨a, ha, b, hb, hab, hcp', hd'⟩ :=
            ih (List.pairwise_cons.mp hsort).2 hrest cp hcp
          exact ⟨a, List.mem_cons_of_mem d ha, b, List.mem_cons_of_mem d hb,
            hab, hcp', hd'⟩

/-- Completeness of the whole scan: every qualifying pair of dates from
a strictly ascending date list yields its candidate. -/
theorem scanAll_complete {det : ChangeDetector} {lookup : Int → ℚ}
    {a b : Int} :
    ∀ {ds : List Int} {l : List ChangePoint}, ds.Pairwise (· < ·) →
    a ∈ ds → b ∈ ds → a < b → b - a ≤ det.max_duration_days →
    lookup a ≠ 0 →
    det.change_threshold ≤ |(lookup b - lookup a) / lookup a * 100| →
    scanAll det lookup ds = .ok l →
    mkChangePoint a b (lookup a) (lookup b) ∈ l := by
  intro ds
  induction ds with
  | nil => intro l _ ha; cases ha
  | cons x ds ih =>
    intro l hsort ha hb hab hdur hra hthr h
    rw [scanAll] at h
    cases hhere : scanFrom det lookup x (lookup x) ds with
    | error err => rw [hhere] at h; cases h
    | ok here =>
      rw [hhere] at h
      cases hrest : scanAll det lookup ds with
      | error err => rw [hrest] at h; cases h
      | ok rest =>
        rw [hrest] at h
        simp only [Except.bind, Except.map, Except.ok.injEq] at h
        subst h
        rcases List.mem_cons.mp ha with rfl | ha
        · have hb' : b ∈ ds := by
            rcases List.mem_cons.mp hb with hbx | hb'
            · omega
            · exact hb'
          exact List.mem_append.mpr (Or.inl
            (scanFrom_complete hra (List.pairwise_cons.mp hsort).2 hb' hdur
              hthr hhere))
        · have hxa : x < a := (List.pairwise_cons.mp hsort).1 a ha
          have hb' : b ∈ ds := by
            rcases List.mem_cons.mp hb with hbx | hb'
            · omega
            · exact hb'
          exact List.mem_append.mpr (Or.inr
            (ih (List.pairwise_cons.mp hsort).2 ha hb' hab hdur hra hthr hrest))

/-! ### Facts about the date dictionary and the candidate list -/

theorem filter_day_ne_nil {rates : List ExchangeRate} {d : Int}
    (h : d ∈ rates.map (fun r => r.timestamp.day)) :
    rates.filter (fun r => r.timestamp.day == d) ≠ [] := by
  obtain ⟨r, hr, hrd⟩ := List.mem_map.mp h
  intro hnil
  have hmem : r ∈ rates.filter (fun r => r.timestamp.day == d) :=
    List.mem_filter.mpr ⟨hr, by simp [hrd]⟩
  rw [hnil] at hmem
  cases hmem

/-- For a date occurring in the list, the dict lookup returns the rate
of some observation with that date. -/
theorem lookupRate_mem {rates : List ExchangeRate} {d : Int}
    (h : d ∈ rates.map (fun r => r.timestamp.day)) :
    ∃ r ∈ rates, r.timestamp.day = d ∧ lookupRate rates d = r.rate := by
  have hne := filter_day_ne_nil h
  cases hL : (rates.filter (fun r => r.timestamp.day == d)).getLast? with
  | none => exact absurd (List.getLast?_eq_none_iff.mp hL) hne
  | some r =>
    have hrmem := List.mem_of_mem_getLast? hL
    have hsplit := List.mem_filter.mp hrmem
    exact ⟨r, hsplit.1, by simpa using hsplit.2, by rw [lookupRate, hL]⟩

theorem lookupRate_ne_zero {rates : List ExchangeRate} {d : Int}
    (hz : ∀ r ∈ rates, r.rate ≠ 0)
    (h : d ∈ rates.map (fun r => r.timestamp.day)) : lookupRate rates d ≠ 0 := by
  obtain ⟨r, hr, _, hl⟩ := lookupRate_mem h
  rw [hl]
  exact hz r hr

/-- With pairwise-distinct dates, the dict lookup of an observation's
date is exactly that observation's rate. -/
theorem lookupRate_nodup {rates : List ExchangeRate}
    (hnd : (rates.map (fun r => r.timestamp.day)).Nodup)
    {a : ExchangeRate} (ha : a ∈ rates) :
    lookupRate rates a.timestamp.day = a.rate := by
  induction rates with
  | nil => cases ha
  | cons r rs ih =>
    rw [List.map_cons, List.nodup_cons] at hnd
    rcases List.mem_cons.mp ha with rfl | ha'
    · have hfil : rs.filter (fun x => x.timestamp.day == a.timestamp.day) = [] := by
        rw [List.filter_eq_nil_iff]
        intro x hx
        simp only [beq_iff_eq]
        intro hxa
        exact hnd.1 (List.mem_map.mpr ⟨x, hx, hxa⟩)
      rw [lookupRate, List.filter_cons_of_pos (by simp), hfil]
      rfl
    · have hrd : r.timestamp.day ≠ a.timestamp.day :=
        fun he => hnd.1 (he ▸ List.mem_map.mpr ⟨a, ha', rfl⟩)
      have hrec := ih hnd.2 ha'
      rw [lookupRate] at hrec
      rw [lookupRate, List.filter_cons_of_neg (by simp [hrd])]
      exact hrec

theorem candidates_ok {det : ChangeDetector} {rates : List ExchangeRate}
    (hz : ∀ r ∈ rates, r.rate ≠ 0) :
    ∃ l, candidates det rates = .ok l := by
  rw [candidates]
  apply scanAll_ok
  intro d hd
  exact lookupRate_ne_zero hz (List.mem_dedup.mp (mem_sortDates.mp hd))

/-- The scan's date list is strictly ascending. -/
theorem days_sorted (rates : List ExchangeRate) :
    (sortDates ((rates.map (fun r => r.timestamp.day)).dedup)).Pairwise
      (· < ·) :=
  sortDates_pairwise_lt (List.nodup_dedup _)

theorem detect_changes_ok_elim {det : ChangeDetector}
    {rates : List ExchangeRate} {l : List ChangePoint}
    (h : detect_changes det rates = .ok l) :
    l = [] ∨ ∃ cs, candidates det rates = .ok cs ∧
      l = remove_overlapping_changes cs := by
  rw [detect_changes] at h
  by_cases h2 : rates.length < 2
  · rw [if_pos h2] at h
    cases h
    exact Or.inl rfl
  · rw [if_neg h2] at h
    cases hc : candidates det rates with
    | error e => rw [hc] at h; cases h
    | ok cs =>
      rw [hc] at h
      simp only [Except.map, Except.ok.injEq] at h
      exact Or.inr ⟨cs, rfl, h.symm⟩

/-! ### Facts about the overlap resolver -/

theorem mem_rangeList {a b d : Int} : d ∈ rangeList a b ↔ a ≤ d ∧ d ≤ b := by
  rw [rangeList, List.mem_map]
  constructor
  · intro h
    obtain ⟨k, hk, he⟩ := h
    rw [List.mem_range] at hk
    omega
  · intro h
    refine ⟨(d - a).toNat, ?_, ?_⟩
    · rw [List.mem_range]
      omega
    · omega

theorem RangesDisjoint.symm {c1 c2 : ChangePoint} (h : RangesDisjoint c1 c2) :
    RangesDisjoint c2 c1 := by
  intro d hd
  exact h d ⟨hd.2, hd.1⟩

/-- Whatever the greedy loop accepts has a date range disjoint from the
used-date set it started with. -/
theorem greedyFilter_avoids_used :
    ∀ {cs : List ChangePoint} {used : List Int} {c : ChangePoint},
    c ∈ greedyFilter cs used →
    ∀ d ∈ rangeList c.start_date.day c.end_date.day, d ∉ used := by
  intro cs
  induction cs with
  | nil => intro used c hc; cases hc
  | cons x cs ih =>
    intro used c hc d hd
    rw [greedyFilter] at hc
    by_cases hov : (rangeList x.start_date.day x.end_date.day).any
        (fun d => used.contains d)
    · rw [if_pos hov] at hc
      exact ih hc d hd
    · rw [if_neg hov] at hc
      rcases List.mem_cons.mp hc with rfl | hc
      · intro hdu
        exact hov (List.any_eq_true.mpr ⟨d, hd, List.elem_iff.mpr hdu⟩)
      · intro hdu
        exact ih hc d hd (List.mem_append.mpr (Or.inl hdu))

/-- The greedy loop's output has pairwise disjoint date ranges. -/
theorem greedyFilter_pairwise :
    ∀ (cs : List ChangePoint) (used : List Int),
    (greedyFilter cs used).Pairwise RangesDisjoint := by
  intro cs
  induction cs with
  | nil => intro used; exact List.Pairwise.nil
  | cons x cs ih =>
    intro used
    rw [greedyFilter]
    by_cases hov : (rangeList x.start_date.day x.end_date.day).any
        (fun d => used.contains d)
    · rw [if_pos hov]
      exact ih used
    · rw [if_neg hov]
      refine List.pairwise_cons.mpr ⟨?_, ih _⟩
      intro c hc d hd
      have havoid := greedyFilter_avoids_used hc d (mem_rangeList.mpr hd.2)
      exact havoid (List.mem_append.mpr (Or.inr (mem_rangeList.mpr hd.1)))

theorem greedyFilter_sublist :
    ∀ (cs : List ChangePoint) (used : List Int),
    (greedyFilter cs used).Sublist cs := by
  intro cs
  induction cs with
  | nil => intro used; exact List.Sublist.refl []
  | cons x cs ih =>
    intro used
    rw [greedyFilter]
    by_cases hov : (rangeList x.start_date.day x.end_date.day).any
        (fun d => used.contains d)
    · rw [if_pos hov]
      exact (ih used).cons x
    · rw [if_neg hov]
      exact (ih _).cons₂ x

theorem mem_remove_overlapping {changes : List ChangePoint} {c : ChangePoint}
    (h : c ∈ remove_overlapping_changes changes) : c ∈ changes := by
  rw [remove_overlapping_changes] at h
  by_cases he : changes.isEmpty
  · rw [if_pos he] at h
    cases h
  · rw [if_neg he] at h
    exact (sortBy_perm _ changes).mem_iff.mp
      ((greedyFilter_sublist _ _).mem (mem_sortBy.mp h))

/-- The final result of overlap resolution is pairwise non-overlapping
(for an arbitrary candidate list). -/
theorem remove_overlapping_pairwise (changes : List ChangePoint) :
    (remove_overlapping_changes changes).Pairwise RangesDisjoint := by
  rw [remove_overlapping_changes]
  by_cases he : changes.isEmpty
  · rw [if_pos he]
    exact List.Pairwise.nil
  · rw [if_neg he, sortByStart]
    exact ((sortBy_perm _ _).pairwise_iff
      (fun h => RangesDisjoint.symm h)).mpr (greedyFilter_pairwise _ _)

theorem startLe_total (a b : ChangePoint) :
    DateTime.le a.start_date b.start_date = true ∨
    DateTime.le b.start_date a.start_date = true := by
  simp only [DateTime.le, Bool.or_eq_true, decide_eq_true_eq,
    Bool.and_eq_true, beq_iff_eq]
  omega

theorem startLe_trans (a b c : ChangePoint)
    (h1 : DateTime.le a.start_date b.start_date = true)
    (h2 : DateTime.le b.start_date c.start_date = true) :
    DateTime.le a.start_date c.start_date = true := by
  simp only [DateTime.le, Bool.or_eq_true, decide_eq_true_eq,
    Bool.and_eq_true, beq_iff_eq] at h1 h2 ⊢
  omega

/-- The final result of overlap resolution is ascending by start date. -/
theorem remove_overlapping_sorted (changes : List ChangePoint) :
    (remove_overlapping_changes changes).Pairwise
      (fun a b => DateTime.le a.start_date b.start_date = true) := by
  rw [remove_overlapping_changes]
  by_cases he : changes.isEmpty
  · rw [if_pos he]
    exact List.Pairwise.nil
  · rw [if_neg he]
    exact sortBy_pairwise startLe_total startLe_trans _

/-! ### Concrete evaluations shared by witnesses -/

theorem detect_wRates_eval : detect_changes ⟨2, 60⟩ wRates = .ok [wCP] := by
  norm_num [detect_changes, candidates, wRates, scanAll, scanFrom, lookupRate,
    sortDates, sortBy, insertBy, List.dedup, remove_overlapping_changes,
    sortByMagDesc, sortByStart, greedyFilter, rangeList, mkChangePoint,
    calculate_severity, wCP, DateTime.le, Except.map, Except.bind]

/-- Shape invariant of the raw candidate list. -/
theorem candidates_shape {det : ChangeDetector} {rates : List ExchangeRate}
    {cs : List ChangePoint} (h : candidates det rates = .ok cs) :
    ∀ cp ∈ cs, cp.start_date.day < cp.end_date.day ∧
      cp.start_date.sec = 0 ∧ cp.end_date.sec = 0 ∧
      cp.duration_days = cp.end_date.day - cp.start_date.day ∧
      cp.duration_days ≤ det.max_duration_days := by
  intro cp hcp
  obtain ⟨a, ha, b, hb, hab, hcp', hd'⟩ :=
    scanAll_shape (days_sorted rates) h cp hcp
  subst hcp'
  exact ⟨hab, rfl, rfl, rfl, hd'⟩

theorem detect_negRates_eval : detect_changes ⟨2, 60⟩ negRates = .ok [negCP] := by
  norm_num [detect_changes, candidates, negRates, scanAll, scanFrom, lookupRate,
    sortDates, sortBy, insertBy, List.dedup, remove_overlapping_changes,
    sortByMagDesc, sortByStart, greedyFilter, rangeList, mkChangePoint,
    calculate_severity, negCP, DateTime.le, Except.map, Except.bind]

theorem detect_smallRates_eval :
    detect_changes ⟨-1, 60⟩ smallRates = .ok [smallCP] := by
  norm_num [detect_changes, candidates, smallRates, scanAll, scanFrom,
    lookupRate, sortDates, sortBy, insertBy, List.dedup,
    remove_overlapping_changes, sortByMagDesc, sortByStart, greedyFilter,
    rangeList, mkChangePoint, calculate_severity, smallCP, DateTime.le,
    Except.map, Except.bind]

/-! ### The claims -/

/-- C4: severity classification uses exclusive `>` boundaries evaluated
high-medium-low: exactly 5.0% at duration ≥ 7 is `medium` not `high`;
exactly 2.0% at duration ≥ 14 is `low` not `medium`; and the three
tiers are characterized by the first-match-wins conditions
`high ↔ change > 5 ∨ (change > 3 ∧ duration < 7)`, then
`medium ↔ change > 3 ∨ (change > 2 ∧ duration < 14)`, else `low`. -/
theorem severity_boundaries :
    (∀ dd : Int, 7 ≤ dd → calculate_severity 5 dd = "medium") ∧
    (∀ dd : Int, 14 ≤ dd → calculate_severity 2 dd = "low") ∧
    (∀ (cp : ℚ) (dd : Int),
      (calculate_severity cp dd = "high" ↔ (5 < cp ∨ (3 < cp ∧ dd < 7))) ∧
      (calculate_severity cp dd = "medium" ↔
        ¬(5 < cp ∨ (3 < cp ∧ dd < 7)) ∧ (3 < cp ∨ (2 < cp ∧ dd < 14))) ∧
      (calculate_severity cp dd = "low" ↔
        ¬(5 < cp ∨ (3 < cp ∧ dd < 7)) ∧
        ¬(3 < cp ∨ (2 < cp ∧ dd < 14)))) := by
  refine ⟨?_, ?_, ?_⟩
  · intro dd h
    have h7 : ¬ dd < 7 := by omega
    norm_num [calculate_severity, h7]
  · intro dd h
    norm_num [calculate_severity]
  · intro cp dd
    rw [calculate_severity]
    split_ifs with h1 h2
    · refine ⟨⟨fun _ => h1, fun _ => rfl⟩, ?_, ?_⟩
      · exact ⟨fun he => absurd he (by decide), fun hc => absurd h1 hc.1⟩
      · exact ⟨fun he => absurd he (by decide), fun hc => absurd h1 hc.1⟩
    · refine ⟨?_, ⟨fun _ => ⟨h1, h2⟩, fun _ => rfl⟩, ?_⟩
      · exact ⟨fun he => absurd he (by decide), fun hc => absurd hc h1⟩
      · exact ⟨fun he => absurd he (by decide), fun hc => absurd h2 hc.2⟩
    · refine ⟨?_, ?_, ⟨fun _ => ⟨h1, h2⟩, fun _ => rfl⟩⟩
      · exact ⟨fun he => absurd he (by decide), fun hc => absurd hc h1⟩
      · exact ⟨fun he => absurd he (by decide), fun hc => absurd hc.2 h2⟩

/-- Witness for C4 at concrete boundary inputs. -/
theorem severity_boundaries_witness :
    calculate_severity 5 20 = "medium" ∧ calculate_severity 2 14 = "low" :=
  ⟨severity_boundaries.1 20 (by norm_num),
   severity_boundaries.2.1 14 (by norm_num)⟩

/-- C6: the list produced by overlap resolution — hence the final
result of `detect_changes` — contains no two change points whose
inclusive calendar-date ranges share a date. -/
theorem nonoverlap_invariant :
    (∀ changes : List ChangePoint,
      (remove_overlapping_changes changes).Pairwise RangesDisjoint) ∧
    (∀ (det : ChangeDetector) (rates : List ExchangeRate)
      (l : List ChangePoint), detect_changes det rates = .ok l →
      l.Pairwise RangesDisjoint) := by
  refine ⟨remove_overlapping_pairwise, ?_⟩
  intro det rates l h
  rcases detect_changes_ok_elim h with rfl | ⟨cs, _, rfl⟩
  · exact List.Pairwise.nil
  · exact remove_overlapping_pairwise cs

/-- Witness for C6 on a concrete run. -/
theorem nonoverlap_invariant_witness :
    detect_changes ⟨2, 60⟩ wRates = .ok [wCP] ∧
    List.Pairwise RangesDisjoint [wCP] :=
  ⟨detect_wRates_eval,
   nonoverlap_invariant.2 ⟨2, 60⟩ wRates [wCP] detect_wRates_eval⟩

/-- C7: the final list returned by `detect_changes` is sorted ascending
by `start_date`. -/
theorem chronological_order (det : ChangeDetector)
    (rates : List ExchangeRate) (l : List ChangePoint)
    (h : detect_changes det rates = .ok l) :
    l.Pairwise (fun a b => DateTime.le a.start_date b.start_date = true) := by
  rcases detect_changes_ok_elim h with rfl | ⟨cs, _, rfl⟩
  · exact List.Pairwise.nil
  · exact remove_overlapping_sorted cs

/-- Witness for C7 on a concrete run. -/
theorem chronological_order_witness :
    detect_changes ⟨2, 60⟩ wRates = .ok [wCP] ∧
    List.Pairwise
      (fun a b : ChangePoint => DateTime.le a.start_date b.start_date = true)
      [wCP] :=
  ⟨detect_wRates_eval,
   chronological_order ⟨2, 60⟩ wRates [wCP] detect_wRates_eval⟩

/-- C8: every change point emitted by the scanner — and hence every
element of `detect_changes`' final result — has `start_date < end_date`
strictly, `duration_days` equal to the day difference of its dates, and
`duration_days ≤ max_duration_days`. -/
theorem changePoint_invariant :
    (∀ (det : ChangeDetector) (rates : List ExchangeRate)
      (cs : List ChangePoint), candidates det rates = .ok cs →
      ∀ cp ∈ cs, cp.start_date.day < cp.end_date.day ∧
        cp.duration_days = cp.end_date.day - cp.start_date.day ∧
        cp.duration_days ≤ det.max_duration_days) ∧
    (∀ (det : ChangeDetector) (rates : List ExchangeRate)
      (l : List ChangePoint), detect_changes det rates = .ok l →
      ∀ cp ∈ l, cp.start_date.day < cp.end_date.day ∧
        cp.duration_days = cp.end_date.day - cp.start_date.day ∧
        cp.duration_days ≤ det.max_duration_days) := by
  constructor
  · intro det rates cs h cp hcp
    obtain ⟨h1, _, _, h4, h5⟩ := candidates_shape h cp hcp
    exact ⟨h1, h4, h5⟩
  · intro det rates l h cp hcp
    rcases detect_changes_ok_elim h with rfl | ⟨cs, hcs, rfl⟩
    · cases hcp
    · obtain ⟨h1, _, _, h4, h5⟩ :=
        candidates_shape hcs cp (mem_remove_overlapping hcp)
      exact ⟨h1, h4, h5⟩

/-- Witness for C8 on a concrete run. -/
theorem changePoint_invariant_witness :
    detect_changes ⟨2, 60⟩ wRates = .ok [wCP] ∧
    (wCP.start_date.day < wCP.end_date.day ∧
      wCP.duration_days = wCP.end_date.day - wCP.start_date.day ∧
      wCP.duration_days ≤ (60 : Int)) :=
  ⟨detect_wRates_eval,
   changePoint_invariant.2 ⟨2, 60⟩ wRates [wCP] detect_wRates_eval wCP
     (List.mem_cons_self wCP [])⟩

/-- C9: detection is a pure function of the input series and the
configuration — equal configurations and equal inputs yield equal
results, with no dependence on hidden state. -/
theorem determinism (det1 det2 : ChangeDetector)
    (rates1 rates2 : List ExchangeRate)
    (ht : det1.change_threshold = det2.change_threshold)
    (hm : det1.max_duration_days = det2.max_duration_days)
    (hr : rates1 = rates2) :
    detect_changes det1 rates1 = detect_changes det2 rates2 := by
  cases det1
  cases det2
  cases ht
  cases hm
  cases hr
  rfl

/-- Witness for C9 at a concrete input. -/
theorem determinism_witness :
    detect_changes ⟨2, 60⟩ wRates = detect_changes ⟨2, 60⟩ wRates :=
  determinism ⟨2, 60⟩ ⟨2, 60⟩ wRates wRates rfl rfl rfl

/-- C2 counterexample: with the non-positive threshold `-1` (and window
60), `ChangeDetector` happily returns a scan result — no fail-fast
validation exists. -/
theorem no_config_validation_cx :
    detect_changes ⟨-1, 60⟩ smallRates = .ok [smallCP] :=
  detect_smallRates_eval

/-- C2 (amended): neither `ChangeDetector.__init__` nor `detect_changes`
validates the configuration: for every non-positive `change_threshold`
or non-positive `max_duration_days`, and every observation list with no
zero rate, `detect_changes` still returns a scan result (it never fails
fast). -/
theorem no_config_validation (t : ℚ) (dmax : Int)
    (rates : List ExchangeRate) (_hcfg : t ≤ 0 ∨ dmax ≤ 0)
    (hz : ∀ r ∈ rates, r.rate ≠ 0) :
    ∃ l, detect_changes ⟨t, dmax⟩ rates = .ok l := by
  by_cases h2 : rates.length < 2
  · exact ⟨[], by rw [detect_changes, if_pos h2]⟩
  · obtain ⟨cs, hcs⟩ := @candidates_ok ⟨t, dmax⟩ rates hz
    exact ⟨remove_overlapping_changes cs,
      by rw [detect_changes, if_neg h2, hcs]; rfl⟩

/-- Witness for the amended C2. -/
theorem no_config_validation_witness :
    ((-1 : ℚ) ≤ 0 ∨ (60 : Int) ≤ 0) ∧
    (∃ l, detect_changes ⟨-1, 60⟩ smallRates = .ok l) :=
  ⟨Or.inl (by norm_num),
   no_config_validation (-1) 60 smallRates (Or.inl (by norm_num))
     (by simp [smallRates])⟩

/-- C3 counterexample: an observation with negative rate `-100` is used
as a window start without any validation error and without being
filtered out: the scan returns a normal result whose change point
carries the negative `start_rate`. -/
theorem no_rate_validation_cx :
    detect_changes ⟨2, 60⟩ negRates = .ok [negCP] ∧
    negCP.start_rate = -100 :=
  ⟨detect_negRates_eval, rfl⟩

/-- C3 (amended): `detect_changes` performs no rate validation at all:
(a) whenever no observation has rate exactly zero — negative rates
included — the scan completes without error; (b) a zero `start_rate`
inside the window propagates the division error out of
`detect_changes` (Python's `ZeroDivisionError`). -/
theorem no_rate_validation :
    (∀ (det : ChangeDetector) (rates : List ExchangeRate),
      (∀ r ∈ rates, r.rate ≠ 0) →
      ∃ l, detect_changes det rates = .ok l) ∧
    (∀ (det : ChangeDetector) (r1 r2 : ExchangeRate),
      r1.rate = 0 → r1.timestamp.day < r2.timestamp.day →
      r2.timestamp.day - r1.timestamp.day ≤ det.max_duration_days →
      detect_changes det [r1, r2] = .error .divisionByZero) := by
  constructor
  · intro det rates hz
    by_cases h2 : rates.length < 2
    · exact ⟨[], by rw [detect_changes, if_pos h2]⟩
    · obtain ⟨cs, hcs⟩ := @candidates_ok det rates hz
      exact ⟨remove_overlapping_changes cs,
        by rw [detect_changes, if_neg h2, hcs]; rfl⟩
  · intro det r1 r2 h0 hlt hwin
    have hne : r2.timestamp.day ≠ r1.timestamp.day := by omega
    have hne' : r1.timestamp.day ≠ r2.timestamp.day := by omega
    rw [detect_changes, if_neg (by norm_num)]
    have hdays : (([r1, r2].map (fun r => r.timestamp.day)).dedup) =
        [r1.timestamp.day, r2.timestamp.day] := by
      rw [List.map_cons, List.map_cons, List.map_nil,
        List.dedup_cons_of_not_mem (by simp [hne']),
        List.dedup_cons_of_not_mem (by simp), List.dedup_nil]
    have hsort : sortDates [r1.timestamp.day, r2.timestamp.day] =
        [r1.timestamp.day, r2.timestamp.day] := by
      simp [sortDates, sortBy, insertBy, hlt.le]
    have hfil : [r1, r2].filter
        (fun r => r.timestamp.day == r1.timestamp.day) = [r1] := by
      rw [List.filter_cons_of_pos (by simp),
        List.filter_cons_of_neg (by simp [hne]), List.filter_nil]
    have hlook : lookupRate [r1, r2] r1.timestamp.day = 0 := by
      rw [lookupRate, hfil]
      simpa using h0
    rw [candidates, hdays, hsort, scanAll, hlook, scanFrom,
      if_neg (not_lt.mpr hwin), if_pos rfl]
    rfl

/-- Witness for the amended C3: the negative-rate series scans without
error, and a zero start rate propagates the division error. -/
theorem no_rate_validation_witness :
    (∃ l, detect_changes ⟨2, 60⟩ negRates = .ok l) ∧
    detect_changes ⟨2, 60⟩ [⟨⟨0, 0⟩, 0⟩, ⟨⟨10, 0⟩, 104⟩] =
      .error .divisionByZero :=
  ⟨no_rate_validation.1 ⟨2, 60⟩ negRates (by simp [negRates]),
   no_rate_validation.2 ⟨2, 60⟩ ⟨⟨0, 0⟩, 0⟩ ⟨⟨10, 0⟩, 104⟩ rfl (by norm_num)
     (by norm_num)⟩

/-! ### The persistence loop -/

theorem saveLoop_fail {save : ChangePoint → Except String Unit} :
    ∀ {changes : List ChangePoint} {n : Nat},
    (∃ c ∈ changes, (save c).isOk = false) → saveLoop save changes n = 0 := by
  intro changes
  induction changes with
  | nil =>
    intro n h
    obtain ⟨c, hc, _⟩ := h
    cases hc
  | cons c cs ih =>
    intro n h
    rw [saveLoop]
    cases hsc : save c with
    | ok u =>
      obtain ⟨c', hc', hfail⟩ := h
      rcases List.mem_cons.mp hc' with rfl | hc'
      · rw [hsc] at hfail
        cases hfail
      · exact ih ⟨c', hc', hfail⟩
    | error e => rfl

theorem saveLoop_all_ok {save : ChangePoint → Except String Unit} :
    ∀ {changes : List ChangePoint} (n : Nat),
    (∀ c ∈ changes, (save c).isOk = true) →
    saveLoop save changes n = n + changes.length := by
  intro changes
  induction changes with
  | nil => intro n _; rw [saveLoop]; rfl
  | cons c cs ih =>
    intro n h
    rw [saveLoop]
    cases hsc : save c with
    | ok u =>
      have hrest := ih (n + 1) (fun x hx => h x (List.mem_cons_of_mem c hx))
      show saveLoop save cs (n + 1) = n + (c :: cs).length
      rw [hrest, List.length_cons]
      omega
    | error e =>
      have := h c (List.mem_cons_self c cs)
      rw [hsc] at this
      cases this

/-- C1 counterexample: five resolved change points where only the third
save fails — `save_alerts_to_database` returns `0`, not `4`: the single
`except` around the whole loop aborts the batch and discards the count. -/
theorem persistence_abort_cx :
    save_alerts_to_database badSave fiveChanges = 0 ∧
    save_alerts_to_database badSave fiveChanges ≠ 4 := by
  constructor
  · rfl
  · intro h
    cases h

/-- C1 (amended): persistence failures are NOT isolated per alert: the
first failing save aborts the remaining saves and the reported
persisted count is `0` (only an all-successful batch reports its true
count); `analyze_exchange_rates` still returns the full detected list,
paired with that count. -/
theorem persistence_abort :
    (∀ (save : ChangePoint → Except String Unit)
      (changes : List ChangePoint),
      (∃ c ∈ changes, (save c).isOk = false) →
      save_alerts_to_database save changes = 0) ∧
    (∀ (save : ChangePoint → Except String Unit)
      (changes : List ChangePoint),
      (∀ c ∈ changes, (save c).isOk = true) →
      save_alerts_to_database save changes = changes.length) ∧
    (∀ (rates : List ExchangeRate) (save : ChangePoint → Except String Unit)
      (changes : List ChangePoint), rates.isEmpty = false →
      detect_changes ⟨2, 60⟩ (sortByTimestamp rates) = .ok changes →
      analyze_exchange_rates rates save =
        (changes, save_alerts_to_database save changes)) := by
  refine ⟨?_, ?_, ?_⟩
  · intro save changes h
    exact saveLoop_fail h
  · intro save changes h
    rw [save_alerts_to_database, saveLoop_all_ok 0 h]
    omega
  · intro rates save changes hne hdet
    rw [analyze_exchange_rates, if_neg (by rw [hne]; exact Bool.false_ne_true),
      hdet]

/-- Witness for the amended C1: a concrete failing save yields count 0
while the full detected list is still returned. -/
theorem persistence_abort_witness :
    save_alerts_to_database badSave fiveChanges = 0 ∧
    analyze_exchange_rates wRates (fun _ => .error "db down") =
      ([wCP], 0) := by
  constructor
  · exact persistence_abort.1 badSave fiveChanges
      ⟨⟨⟨20, 0⟩, ⟨21, 0⟩, 100, 103, 3, 1, "positive", "medium"⟩,
       by simp [fiveChanges], rfl⟩
  · have h3 := persistence_abort.2.2 wRates (fun _ => .error "db down")
      [wCP] rfl detect_wRates_eval
    have h1 := persistence_abort.1 (fun _ => .error "db down") [wCP]
      ⟨wCP, List.mem_cons_self wCP [], rfl⟩
    rw [h3, h1]

/-- C5: completeness of the scan. For observations with pairwise
distinct calendar dates (any input order) and positive rates, every
pair whose duration is positive and within the window and whose
absolute percentage change reaches the threshold contributes exactly
its `ChangePoint` (dates, rates, change, duration, direction, severity)
to the candidate list prior to overlap resolution; the early `break`
loses nothing because the scanned dates are strictly increasing. -/
theorem scan_completeness (det : ChangeDetector) (rates : List ExchangeRate)
    (hnd : (rates.map (fun r => r.timestamp.day)).Nodup)
    (hpos : ∀ r ∈ rates, 0 < r.rate)
    (a b : ExchangeRate) (ha : a ∈ rates) (hb : b ∈ rates)
    (hdur : 0 < b.timestamp.day - a.timestamp.day)
    (hwin : b.timestamp.day - a.timestamp.day ≤ det.max_duration_days)
    (hthr : det.change_threshold ≤ |(b.rate - a.rate) / a.rate * 100|) :
    ∃ cs, candidates det rates = .ok cs ∧
      mkChangePoint a.timestamp.day b.timestamp.day a.rate b.rate ∈ cs := by
  have hz : ∀ r ∈ rates, r.rate ≠ 0 := fun r hr => ne_of_gt (hpos r hr)
  obtain ⟨cs, hcs⟩ := @candidates_ok det rates hz
  refine ⟨cs, hcs, ?_⟩
  have hmem : ∀ r : ExchangeRate, r ∈ rates → r.timestamp.day ∈
      sortDates ((rates.map (fun x => x.timestamp.day)).dedup) :=
    fun r hr => mem_sortDates.mpr
      (List.mem_dedup.mpr (List.mem_map.mpr ⟨r, hr, rfl⟩))
  have hla := lookupRate_nodup hnd ha
  have hlb := lookupRate_nodup hnd hb
  have hth' : det.change_threshold ≤
      |(lookupRate rates b.timestamp.day - lookupRate rates a.timestamp.day) /
        lookupRate rates a.timestamp.day * 100| := by
    rw [hla, hlb]
    exact hthr
  have hscan := hcs
  rw [candidates] at hscan
  have hres := scanAll_complete (days_sorted rates) (hmem a ha) (hmem b hb)
    (by omega) hwin (by rw [hla]; exact ne_of_gt (hpos a ha)) hth' hscan
  rw [hla, hlb] at hres
  exact hres

/-- Witness for C5: the qualifying pair of `wRates` appears among the
candidates. -/
theorem scan_completeness_witness :
    ∃ cs, candidates ⟨2, 60⟩ wRates = .ok cs ∧
      mkChangePoint 0 10 100 104 ∈ cs :=
  scan_completeness ⟨2, 60⟩ wRates (by simp [wRates]) (by norm_num [wRates])
    ⟨⟨0, 0⟩, 100⟩ ⟨⟨10, 0⟩, 104⟩ (by simp [wRates]) (by simp [wRates])
    (by norm_num) (by norm_num) (by norm_num)

/-! ### Duplicate dates, time of day, and last-wins semantics -/

theorem dlw_getLast_some (rates : List ExchangeRate) {d : Int}
    (hd : d ∈ rates.map (fun r => r.timestamp.day)) :
    ∃ r, (rates.filter (fun x => x.timestamp.day == d)).getLast? = some r ∧
      r.timestamp.day = d ∧ r ∈ rates := by
  have hne := filter_day_ne_nil hd
  cases hL : (rates.filter (fun x => x.timestamp.day == d)).getLast? with
  | none => exact absurd (List.getLast?_eq_none_iff.mp hL) hne
  | some r =>
    have hmem := List.mem_of_mem_getLast? hL
    have hsplit := List.mem_filter.mp hmem
    exact ⟨r, rfl, by simpa using hsplit.2, hsplit.1⟩

theorem dlw_map_day_aux (rates : List ExchangeRate) :
    ∀ l : List Int, (∀ d ∈ l, d ∈ rates.map (fun r => r.timestamp.day)) →
    (l.filterMap
      (fun d => (rates.filter (fun x => x.timestamp.day == d)).getLast?)).map
        (fun r => r.timestamp.day) = l := by
  intro l
  induction l with
  | nil => intro _; rfl
  | cons d l ih =>
    intro h
    obtain ⟨r, hr, hrd, _⟩ :=
      dlw_getLast_some rates (h d (List.mem_cons_self d l))
    rw [List.filterMap_cons, hr]
    show (r :: l.filterMap _).map (fun r => r.timestamp.day) = d :: l
    rw [List.map_cons, hrd,
      ih (fun x hx => h x (List.mem_cons_of_mem d hx))]

theorem dlw_map_day (rates : List ExchangeRate) :
    (dedupLastWins rates).map (fun r => r.timestamp.day) =
      (rates.map (fun r => r.timestamp.day)).dedup := by
  rw [dedupLastWins]
  exact dlw_map_day_aux rates _ (fun d hd => List.mem_dedup.mp hd)

theorem dlw_filter_aux (rates : List ExchangeRate) {d : Int} :
    ∀ l : List Int, l.Nodup →
    (∀ x ∈ l, x ∈ rates.map (fun r => r.timestamp.day)) →
    (l.filterMap
      (fun e => (rates.filter (fun x => x.timestamp.day == e)).getLast?)).filter
        (fun r => r.timestamp.day == d) =
      if d ∈ l then
        ((rates.filter (fun x => x.timestamp.day == d)).getLast?).toList
      else [] := by
  intro l
  induction l with
  | nil => intro _ _; simp
  | cons x l ih =>
    intro hnd h
    rw [List.nodup_cons] at hnd
    obtain ⟨r, hr, hrd, _⟩ :=
      dlw_getLast_some rates (h x (List.mem_cons_self x l))
    rw [List.filterMap_cons, hr]
    show (r :: l.filterMap _).filter (fun r => r.timestamp.day == d) = _
    by_cases hxd : x = d
    · subst hxd
      rw [List.filter_cons_of_pos (by simp [hrd]),
        ih hnd.2 (fun y hy => h y (List.mem_cons_of_mem x hy)),
        if_neg hnd.1, if_pos (List.mem_cons_self x l), hr]
      rfl
    · rw [List.filter_cons_of_neg (by simp [hrd, hxd]),
        ih hnd.2 (fun y hy => h y (List.mem_cons_of_mem x hy))]
      by_cases hdl : d ∈ l
      · rw [if_pos hdl, if_pos (List.mem_cons_of_mem x hdl)]
      · rw [if_neg hdl, if_neg (by
          intro hc
          rcases List.mem_cons.mp hc with he | he
          · exact hxd he.symm
          · exact hdl he)]

theorem lookupRate_dlw (rates : List ExchangeRate) (d : Int) :
    lookupRate (dedupLastWins rates) d = lookupRate rates d := by
  by_cases hd : d ∈ rates.map (fun r => r.timestamp.day)
  · obtain ⟨r, hr, hrd, _⟩ := dlw_getLast_some rates hd
    simp only [lookupRate, dedupLastWins]
    rw [dlw_filter_aux rates _ (List.nodup_dedup _)
        (fun x hx => List.mem_dedup.mp hx),
      if_pos (List.mem_dedup.mpr hd), hr]
    rfl
  · have h1 : rates.filter (fun x => x.timestamp.day == d) = [] := by
      rw [List.filter_eq_nil_iff]
      intro x hx
      simp only [beq_iff_eq]
      exact fun he => hd (List.mem_map.mpr ⟨x, hx, he⟩)
    have h2 : (dedupLastWins rates).filter
        (fun x => x.timestamp.day == d) = [] := by
      rw [List.filter_eq_nil_iff]
      intro x hx
      simp only [beq_iff_eq]
      intro he
      have hxm : x.timestamp.day ∈
          (dedupLastWins rates).map (fun r => r.timestamp.day) :=
        List.mem_map.mpr ⟨x, hx, rfl⟩
      rw [dlw_map_day] at hxm
      exact hd (List.mem_dedup.mp (he ▸ hxm))
    simp only [lookupRate]
    rw [h1, h2]

theorem dlw_length (rates : List ExchangeRate) :
    (dedupLastWins rates).length =
      (rates.map (fun r => r.timestamp.day)).dedup.length := by
  rw [← dlw_map_day rates, List.length_map]

theorem detect_dlw_eq (det : ChangeDetector) (rates : List ExchangeRate) :
    detect_changes det rates = detect_changes det (dedupLastWins rates) := by
  have hlen := dlw_length rates
  have hlookup : lookupRate (dedupLastWins rates) = lookupRate rates :=
    funext (lookupRate_dlw rates)
  have hdays2 : ((dedupLastWins rates).map (fun r => r.timestamp.day)).dedup =
      (rates.map (fun r => r.timestamp.day)).dedup := by
    rw [dlw_map_day, List.dedup_idem]
  by_cases h2 : rates.length < 2
  · have h3 : (dedupLastWins rates).length < 2 := by
      have hsub : (rates.map (fun r => r.timestamp.day)).dedup.length ≤
          rates.length := by
        have hle := (List.dedup_sublist
          (rates.map (fun r => r.timestamp.day))).length_le
        rw [List.length_map] at hle
        exact hle
      omega
    rw [detect_changes, if_pos h2, detect_changes, if_pos h3]
  · by_cases h3 : (dedupLastWins rates).length < 2
    · have hrne : rates ≠ [] := by
        intro he
        rw [he] at h2
        exact h2 (by norm_num)
      have hpos1 : 1 ≤ (rates.map (fun r => r.timestamp.day)).dedup.length := by
        obtain ⟨r, hr⟩ := List.exists_mem_of_ne_nil rates hrne
        have hm : r.timestamp.day ∈
            (rates.map (fun x => x.timestamp.day)).dedup :=
          List.mem_dedup.mpr (List.mem_map.mpr ⟨r, hr, rfl⟩)
        exact List.length_pos.mpr (List.ne_nil_of_mem hm)
      have hlen1 : (rates.map (fun r => r.timestamp.day)).dedup.length = 1 := by
        omega
      obtain ⟨d, hd⟩ := List.length_eq_one.mp hlen1
      rw [detect_changes, if_neg h2, detect_changes, if_pos h3, candidates, hd]
      rfl
    · rw [detect_changes, if_neg h2, detect_changes, if_neg h3,
        candidates, candidates, hdays2, hlookup]

theorem detect_strip_eq (det : ChangeDetector) (rates : List ExchangeRate) :
    detect_changes det rates = detect_changes det (stripTimes rates) := by
  have hdays : (stripTimes rates).map (fun r => r.timestamp.day) =
      rates.map (fun r => r.timestamp.day) := by
    rw [stripTimes, List.map_map]
    rfl
  have hlookup : lookupRate (stripTimes rates) = lookupRate rates := by
    funext d
    simp only [lookupRate, stripTimes]
    rw [List.filter_map, List.getLast?_map]
    have hpred : ((fun r : ExchangeRate => r.timestamp.day == d) ∘
        (fun r : ExchangeRate =>
          { timestamp := ⟨r.timestamp.day, 0⟩, rate := r.rate })) =
        (fun r : ExchangeRate => r.timestamp.day == d) := rfl
    rw [hpred]
    cases (rates.filter (fun r => r.timestamp.day == d)).getLast? with
    | none => rfl
    | some r => rfl
  have hlen : (stripTimes rates).length = rates.length := List.length_map _ _
  by_cases h2 : rates.length < 2
  · rw [detect_changes, if_pos h2, detect_changes, if_pos (by omega)]
  · rw [detect_changes, if_neg h2, detect_changes, if_neg (by omega),
      candidates, candidates, hdays, hlookup]

theorem detect_dupRates_eval : detect_changes ⟨2, 60⟩ dupRates = .ok [wCP] := by
  norm_num [detect_changes, candidates, dupRates, scanAll, scanFrom, lookupRate,
    sortDates, sortBy, insertBy, List.dedup, remove_overlapping_changes,
    sortByMagDesc, sortByStart, greedyFilter, rangeList, mkChangePoint,
    calculate_severity, wCP, DateTime.le, Except.map, Except.bind]

/-- C10: duplicate calendar dates raise no error; the scanner behaves
exactly as on the last-wins-deduplicated list (the dict overwrite keeps
the observation appearing last in input order per date); times of day
are discarded (zeroing them never changes the result); and every
emitted change point carries midnight-normalized dates. -/
theorem duplicate_date_lastwins :
    (∀ (det : ChangeDetector) (rates : List ExchangeRate),
      detect_changes det rates = detect_changes det (dedupLastWins rates)) ∧
    (∀ (det : ChangeDetector) (rates : List ExchangeRate),
      detect_changes det rates = detect_changes det (stripTimes rates)) ∧
    (∀ (det : ChangeDetector) (rates : List ExchangeRate)
      (l : List ChangePoint), detect_changes det rates = .ok l →
      ∀ cp ∈ l, cp.start_date.sec = 0 ∧ cp.end_date.sec = 0) := by
  refine ⟨detect_dlw_eq, detect_strip_eq, ?_⟩
  intro det rates l h cp hcp
  rcases detect_changes_ok_elim h with rfl | ⟨cs, hcs, rfl⟩
  · cases hcp
  · obtain ⟨_, hs, he, _, _⟩ :=
      candidates_shape hcs cp (mem_remove_overlapping hcp)
    exact ⟨hs, he⟩

/-- Witness for C10 on a series with a duplicated date: the last
observation of day 0 (rate 100) wins, and the result is
midnight-normalized. -/
theorem duplicate_date_lastwins_witness :
    (detect_changes ⟨2, 60⟩ dupRates =
      detect_changes ⟨2, 60⟩ (dedupLastWins dupRates)) ∧
    detect_changes ⟨2, 60⟩ dupRates = .ok [wCP] ∧
    (wCP.start_date.sec = 0 ∧ wCP.end_date.sec = 0) :=
  ⟨duplicate_date_lastwins.1 ⟨2, 60⟩ dupRates, detect_dupRates_eval,
   duplicate_date_lastwins.2.2 ⟨2, 60⟩ dupRates [wCP] detect_dupRates_eval
     wCP (List.mem_cons_self wCP [])⟩

end CursBNR
